import Mathlib

/-!
Verification of the vocabulary utilities in `vocab_utils.py`.

A Python vocabulary is a dict `{'word2idx': dict, 'idx2word': dict, 'count': int}`.
We model Python dicts as insertion-ordered association lists with first-match
lookup (matching CPython dict semantics: keys are unique as constructed, and
iteration follows insertion order), integers as `Int`, and the fallible
expression `vocab['word2idx']['<UNK>']` inside `lookup_token` as an `Option`
result (Python raises `KeyError` when the key is absent).
-/

/-- First-match lookup in an association list, modelling Python `d[k]` /
`d.get(k, default)` on the dicts built by this module. -/
def lookupKey {α β : Type} [DecidableEq α] (k : α) : List (α × β) → Option β
  | [] => none
  | p :: ps => if k = p.1 then some p.2 else lookupKey k ps

/-- The vocabulary record: `word2idx`, `idx2word` and `count`, as assembled by
`initialize_vocabulary` in the source. -/
structure Vocab where
  word2idx : List (String × Int)
  idx2word : List (Int × String)
  count : Int
deriving DecidableEq

/-- `add_token(vocab, token)` from the source: if the token is not a key of
`word2idx`, map it to the current count in both dicts, increment the count and
return `count - 1`; otherwise return its existing index. State-passing
rendering of the in-place mutation. -/
def add_token (vocab : Vocab) (token : String) : Vocab × Int :=
  match lookupKey token vocab.word2idx with
  | none =>
      let v : Vocab :=
        { word2idx := vocab.word2idx ++ [(token, vocab.count)]
          idx2word := vocab.idx2word ++ [(vocab.count, token)]
          count := vocab.count + 1 }
      (v, v.count - 1)
  | some i => (vocab, i)

/-- `add_tokens(vocab, tokens)` from the source: apply `add_token` to each
token in order, collecting the returned indices. -/
def add_tokens : Vocab → List String → Vocab × List Int
  | vocab, [] => (vocab, [])
  | vocab, token :: rest =>
      let r := add_token vocab token
      let r2 := add_tokens r.1 rest
      (r2.1, r.2 :: r2.2)

/-- The special tokens inserted by `initialize_vocabulary`, in source order. -/
def special_tokens : List String := ["<UNK>", "<PAD>", "<EOS>"]

/-- `initialize_vocabulary()` from the source: empty dicts, zero count, then
`add_token` for each special token in order. -/
def initialize_vocabulary : Vocab :=
  special_tokens.foldl (fun v t => (add_token v t).1) ⟨[], [], 0⟩

/-- `lookup_token(vocab, token)` from the source:
`vocab['word2idx'].get(token, vocab['word2idx']['<UNK>'])`. Python evaluates
the default argument first, so the call raises `KeyError` (here: `none`)
whenever `'<UNK>'` is not a key of `word2idx`, regardless of `token`. -/
def lookup_token (vocab : Vocab) (token : String) : Option Int :=
  match lookupKey "<UNK>" vocab.word2idx with
  | none => none
  | some unk => some ((lookupKey token vocab.word2idx).getD unk)

/-- `lookup_index(vocab, index)` from the source:
`vocab['idx2word'].get(index, '<UNK>')` — literal-string fallback, total. -/
def lookup_index (vocab : Vocab) (index : Int) : String :=
  (lookupKey index vocab.idx2word).getD "<UNK>"

/-- Number of occurrences of a token in a list, modelling the per-key value of
`Counter(tokens)`. -/
def countOcc (t : String) : List String → Nat
  | [] => 0
  | x :: xs => (if x = t then 1 else 0) + countOcc t xs

/-- The keys of `Counter(tokens)` in iteration order: distinct tokens in order
of first occurrence (CPython dicts iterate in insertion order). -/
def counterKeys : List String → List String
  | [] => []
  | x :: xs => x :: (counterKeys xs).filter (fun y => y != x)

/-- `vocabulary_from_tokens(tokens, cutoff)` from the source: start from
`initialize_vocabulary()`, then for each key of `Counter(tokens)` in iteration
order, `add_token` it when its frequency is strictly greater than `cutoff`. -/
def vocabulary_from_tokens (tokens : List String) (cutoff : Int) : Vocab :=
  (counterKeys tokens).foldl
    (fun v word => if (countOcc word tokens : Int) > cutoff then (add_token v word).1 else v)
    initialize_vocabulary

/-- The association list `[(ts 0, n), (ts 1, n+1), ...]`: shape of `word2idx`. -/
def pairsFrom (n : Int) : List String → List (String × Int)
  | [] => []
  | t :: ts => (t, n) :: pairsFrom (n + 1) ts

/-- The association list `[(n, ts 0), (n+1, ts 1), ...]`: shape of `idx2word`. -/
def invFrom (n : Int) : List String → List (Int × String)
  | [] => []
  | t :: ts => (n, t) :: invFrom (n + 1) ts

/-- Well-formedness: the vocabulary is exactly the one determined by a
duplicate-free list of tokens enumerated from index 0. -/
def VocabWf (v : Vocab) : Prop :=
  ∃ ts : List String, ts.Nodup ∧ v.word2idx = pairsFrom 0 ts ∧
    v.idx2word = invFrom 0 ts ∧ v.count = (ts.length : Int)

/-- Vocabularies reachable from `initialize_vocabulary` by any sequence of
`add_token` / `add_tokens` calls. -/
inductive VocabReachable : Vocab → Prop
  | init : VocabReachable initialize_vocabulary
  | add (v : Vocab) (t : String) : VocabReachable v → VocabReachable (add_token v t).1
  | adds (v : Vocab) (ts : List String) : VocabReachable v → VocabReachable (add_tokens v ts).1

/-- A malformed vocabulary used only to witness behaviour outside the
reachable set: `word2idx` has a key but no `'<UNK>'` entry. -/
def badVocab : Vocab := ⟨[("a", 5)], [(0, "zero")], 1⟩

theorem lookupKey_nil {α β : Type} [DecidableEq α] (k : α) :
    lookupKey k ([] : List (α × β)) = none := rfl

theorem lookupKey_cons {α β : Type} [DecidableEq α] (k a : α) (b : β) (l : List (α × β)) :
    lookupKey k ((a, b) :: l) = if k = a then some b else lookupKey k l := rfl

theorem lookupKey_append_some {α β : Type} [DecidableEq α] {k : α} {b : β}
    {l1 : List (α × β)} (l2 : List (α × β)) (h : lookupKey k l1 = some b) :
    lookupKey k (l1 ++ l2) = some b := by
  induction l1 with
  | nil => simp [lookupKey] at h
  | cons p ps ih =>
      rw [List.cons_append]
      by_cases hk : k = p.1
      · simpa [lookupKey, hk] using h
      · simp only [lookupKey, if_neg hk] at h ⊢
        exact ih h

theorem lookupKey_append_none {α β : Type} [DecidableEq α] {k : α}
    {l1 : List (α × β)} (l2 : List (α × β)) (h : lookupKey k l1 = none) :
    lookupKey k (l1 ++ l2) = lookupKey k l2 := by
  induction l1 with
  | nil => simp
  | cons p ps ih =>
      rw [List.cons_append]
      by_cases hk : k = p.1
      · simp [lookupKey, hk] at h
      · simp only [lookupKey, if_neg hk] at h ⊢
        exact ih h

/-- C2: on a token not yet present, `add_token` assigns index `count`, appends
the pair to both dicts, increments `count` by one, and returns the new index. -/
theorem add_token_fresh (v : Vocab) (t : String)
    (h : lookupKey t v.word2idx = none) :
    (add_token v t).2 = v.count ∧
    (add_token v t).1.word2idx = v.word2idx ++ [(t, v.count)] ∧
    (add_token v t).1.idx2word = v.idx2word ++ [(v.count, t)] ∧
    (add_token v t).1.count = v.count + 1 := by
  simp only [add_token, h]
  refine ⟨by ring, by simp, by simp, by simp⟩

theorem add_token_fresh_witness :
    lookupKey "cat" initialize_vocabulary.word2idx = none ∧
    (add_token initialize_vocabulary "cat").2 = initialize_vocabulary.count :=
  ⟨by decide, (add_token_fresh initialize_vocabulary "cat" (by decide)).1⟩

theorem add_token_lookup_self (v : Vocab) (t : String) :
    lookupKey t (add_token v t).1.word2idx = some (add_token v t).2 := by
  cases h : lookupKey t v.word2idx with
  | none =>
      simp only [add_token, h]
      rw [lookupKey_append_none _ h]
      simp [lookupKey]
  | some i => simp [add_token, h]

theorem add_token_preserves_lookup (v : Vocab) (t s : String) (i : Int)
    (h : lookupKey s v.word2idx = some i) :
    lookupKey s (add_token v t).1.word2idx = some i := by
  cases ht : lookupKey t v.word2idx with
  | none =>
      simp only [add_token, ht]
      exact lookupKey_append_some _ h
  | some j => simpa [add_token, ht] using h

theorem add_tokens_preserves_lookup (ts : List String) (s : String) (i : Int) :
    ∀ v : Vocab, lookupKey s v.word2idx = some i →
      lookupKey s (add_tokens v ts).1.word2idx = some i := by
  induction ts with
  | nil => intro v h; simpa [add_tokens] using h
  | cons t rest ih =>
      intro v h
      simp only [add_tokens]
      exact ih _ (add_token_preserves_lookup v t s i h)

theorem reachable_unk (v : Vocab) (h : VocabReachable v) :
    lookupKey "<UNK>" v.word2idx = some 0 := by
  induction h with
  | init => decide
  | add w t hw ih => exact add_token_preserves_lookup w t _ 0 ih
  | adds w ts hw ih => exact add_tokens_preserves_lookup ts _ 0 w ih

/-- C3: on a token already present, `add_token` returns its existing index and
leaves the vocabulary unchanged; calling it twice yields the same index both
times and `count` grows by at most 1 in total. -/
theorem add_token_existing_idem (v : Vocab) (t : String) :
    (∀ i : Int, lookupKey t v.word2idx = some i → add_token v t = (v, i)) ∧
    (add_token (add_token v t).1 t).2 = (add_token v t).2 ∧
    (add_token v t).1.count ≤ v.count + 1 ∧
    (add_token (add_token v t).1 t).1.count ≤ v.count + 1 := by
  have hex : ∀ (w : Vocab) (i : Int), lookupKey t w.word2idx = some i →
      add_token w t = (w, i) := by
    intro w i h
    simp [add_token, h]
  have hsecond : add_token (add_token v t).1 t = ((add_token v t).1, (add_token v t).2) :=
    hex _ _ (add_token_lookup_self v t)
  have hcount : (add_token v t).1.count ≤ v.count + 1 := by
    cases h : lookupKey t v.word2idx <;> simp [add_token, h]
  refine ⟨hex v, by rw [hsecond], hcount, by rw [hsecond]; exact hcount⟩

theorem add_token_existing_idem_witness :
    add_token initialize_vocabulary "<UNK>" = (initialize_vocabulary, 0) :=
  (add_token_existing_idem initialize_vocabulary "<UNK>").1 0 (by decide)

/-- C4: `initialize_vocabulary()` holds exactly the three reserved tokens,
`<UNK>` at 0, `<PAD>` at 1, `<EOS>` at 2, with `count = 3`, and `lookup_token`
returns 0, 1, 2 on them. -/
theorem initialize_vocabulary_spec :
    initialize_vocabulary.word2idx = [("<UNK>", 0), ("<PAD>", 1), ("<EOS>", 2)] ∧
    initialize_vocabulary.idx2word = [(0, "<UNK>"), (1, "<PAD>"), (2, "<EOS>")] ∧
    initialize_vocabulary.count = 3 ∧
    lookup_token initialize_vocabulary "<UNK>" = some 0 ∧
    lookup_token initialize_vocabulary "<PAD>" = some 1 ∧
    lookup_token initialize_vocabulary "<EOS>" = some 2 := by decide

theorem pairsFrom_length (n : Int) (ts : List String) :
    (pairsFrom n ts).length = ts.length := by
  induction ts generalizing n with
  | nil => rfl
  | cons t rest ih => simp [pairsFrom, ih]

theorem invFrom_length (n : Int) (ts : List String) :
    (invFrom n ts).length = ts.length := by
  induction ts generalizing n with
  | nil => rfl
  | cons t rest ih => simp [invFrom, ih]

theorem lookup_pairsFrom_mem (ts : List String) (t : String) :
    ∀ (n i : Int), lookupKey t (pairsFrom n ts) = some i → t ∈ ts := by
  induction ts with
  | nil => intro n i h; simp [pairsFrom, lookupKey] at h
  | cons a rest ih =>
      intro n i h
      simp only [pairsFrom, lookupKey_cons] at h
      by_cases ht : t = a
      · simp [ht]
      · rw [if_neg ht] at h
        exact List.mem_cons_of_mem _ (ih _ _ h)

theorem lookup_invFrom_mem (ts : List String) (t : String) :
    ∀ (n i : Int), lookupKey i (invFrom n ts) = some t → t ∈ ts := by
  induction ts with
  | nil => intro n i h; simp [invFrom, lookupKey] at h
  | cons a rest ih =>
      intro n i h
      simp only [invFrom, lookupKey_cons] at h
      by_cases hi : i = n
      · rw [if_pos hi] at h
        simp [(Option.some.inj h).symm]
      · rw [if_neg hi] at h
        exact List.mem_cons_of_mem _ (ih _ _ h)

theorem mem_lookup_pairsFrom (ts : List String) (t : String) (h : t ∈ ts) :
    ∀ n : Int, (lookupKey t (pairsFrom n ts)).isSome := by
  induction ts with
  | nil => simp at h
  | cons a rest ih =>
      intro n
      simp only [pairsFrom, lookupKey_cons]
      by_cases ht : t = a
      · simp [ht]
      · rw [if_neg ht]
        exact ih (List.mem_of_ne_of_mem ht h) (n + 1)

theorem lookup_pairsFrom_bounds (ts : List String) (t : String) :
    ∀ (n i : Int), lookupKey t (pairsFrom n ts) = some i →
      n ≤ i ∧ i < n + (ts.length : Int) := by
  induction ts with
  | nil => intro n i h; simp [pairsFrom, lookupKey] at h
  | cons a rest ih =>
      intro n i h
      simp only [pairsFrom, lookupKey_cons] at h
      by_cases ht : t = a
      · rw [if_pos ht] at h
        have hni : n = i := Option.some.inj h
        subst hni
        simp only [List.length_cons]
        push_cast
        omega
      · rw [if_neg ht] at h
        have hb := ih (n + 1) i h
        simp only [List.length_cons]
        push_cast
        push_cast at hb
        omega

theorem lookup_invFrom_bounds (ts : List String) (t : String) :
    ∀ (n i : Int), lookupKey i (invFrom n ts) = some t →
      n ≤ i ∧ i < n + (ts.length : Int) := by
  induction ts with
  | nil => intro n i h; simp [invFrom, lookupKey] at h
  | cons a rest ih =>
      intro n i h
      simp only [invFrom, lookupKey_cons] at h
      by_cases hi : i = n
      · subst hi
        simp only [List.length_cons]
        push_cast
        omega
      · rw [if_neg hi] at h
        have hb := ih (n + 1) i h
        simp only [List.length_cons]
        push_cast
        push_cast at hb
        omega

theorem pairsFrom_invFrom_iff (ts : List String) :
    ts.Nodup → ∀ (n i : Int) (t : String),
      (lookupKey t (pairsFrom n ts) = some i ↔ lookupKey i (invFrom n ts) = some t) := by
  induction ts with
  | nil => intro _ n i t; simp [pairsFrom, invFrom, lookupKey]
  | cons a rest ih =>
      intro hnd n i t
      rw [List.nodup_cons] at hnd
      obtain ⟨ha, hrest⟩ := hnd
      simp only [pairsFrom, invFrom, lookupKey_cons]
      by_cases ht : t = a
      · subst ht
        rw [if_pos rfl]
        by_cases hi : i = n
        · subst hi
          rw [if_pos rfl]
          simp
        · rw [if_neg hi]
          constructor
          · intro h
            exact absurd (Option.some.inj h).symm hi
          · intro h
            exact absurd (lookup_invFrom_mem rest t (n + 1) i h) ha
      · rw [if_neg ht]
        by_cases hi : i = n
        · subst hi
          rw [if_pos rfl]
          constructor
          · intro h
            have hb := lookup_pairsFrom_bounds rest t (i + 1) i h
            exact absurd hb.1 (by omega)
          · intro h
            exact absurd (Option.some.inj h).symm ht
        · rw [if_neg hi]
          exact ih hrest (n + 1) i t

theorem pairsFrom_dense (ts : List String) :
    ts.Nodup → ∀ (n i : Int),
      ((∃ t, lookupKey t (pairsFrom n ts) = some i) ↔
        n ≤ i ∧ i < n + (ts.length : Int)) := by
  induction ts with
  | nil =>
      intro _ n i
      simp only [pairsFrom, lookupKey, List.length_nil]
      push_cast
      constructor
      · rintro ⟨t, ht⟩
        exact absurd ht (by simp)
      · intro hb
        omega
  | cons a rest ih =>
      intro hnd n i
      rw [List.nodup_cons] at hnd
      obtain ⟨ha, hrest⟩ := hnd
      constructor
      · rintro ⟨t, ht⟩
        exact lookup_pairsFrom_bounds (a :: rest) t n i ht
      · intro hb
        by_cases hi : i = n
        · subst hi
          exact ⟨a, by simp [pairsFrom, lookupKey_cons]⟩
        · have hb2 : n + 1 ≤ i ∧ i < (n + 1) + (rest.length : Int) := by
            simp only [List.length_cons] at hb
            push_cast at hb
            omega
          obtain ⟨t, ht⟩ := (ih hrest (n + 1) i).2 hb2
          refine ⟨t, ?_⟩
          have htne : t ≠ a := by
            intro he
            exact ha (he ▸ lookup_pairsFrom_mem rest t (n + 1) i ht)
          simp [pairsFrom, lookupKey_cons, if_neg htne, ht]

theorem pairsFrom_append (t : String) (ts : List String) :
    ∀ n : Int, pairsFrom n (ts ++ [t]) = pairsFrom n ts ++ [(t, n + (ts.length : Int))] := by
  induction ts with
  | nil => intro n; simp [pairsFrom]
  | cons a rest ih =>
      intro n
      have step : pairsFrom n ((a :: rest) ++ [t]) = (a, n) :: pairsFrom (n + 1) (rest ++ [t]) :=
        rfl
      rw [step, ih (n + 1)]
      have harith : n + 1 + (rest.length : Int) = n + (((a :: rest).length : Nat) : Int) := by
        simp only [List.length_cons]
        push_cast
        ring
      rw [harith]
      rfl

theorem invFrom_append (t : String) (ts : List String) :
    ∀ n : Int, invFrom n (ts ++ [t]) = invFrom n ts ++ [(n + (ts.length : Int), t)] := by
  induction ts with
  | nil => intro n; simp [invFrom]
  | cons a rest ih =>
      intro n
      have step : invFrom n ((a :: rest) ++ [t]) = (n, a) :: invFrom (n + 1) (rest ++ [t]) :=
        rfl
      rw [step, ih (n + 1)]
      have harith : n + 1 + (rest.length : Int) = n + (((a :: rest).length : Nat) : Int) := by
        simp only [List.length_cons]
        push_cast
        ring
      rw [harith]
      rfl

theorem vocabWf_init : VocabWf initialize_vocabulary := by
  refine ⟨special_tokens, ?_, ?_, ?_, ?_⟩ <;> decide

theorem vocabWf_add_token (v : Vocab) (t : String) (h : VocabWf v) :
    VocabWf (add_token v t).1 := by
  obtain ⟨ts, hnd, hw, hi, hc⟩ := h
  cases hl : lookupKey t v.word2idx with
  | some i =>
      refine ⟨ts, hnd, ?_, ?_, ?_⟩ <;> simp only [add_token, hl] <;> assumption
  | none =>
      have htm : t ∉ ts := by
        intro hm
        have hs := mem_lookup_pairsFrom ts t hm 0
        rw [hw] at hl
        rw [hl] at hs
        simp at hs
      refine ⟨ts ++ [t], ?_, ?_, ?_, ?_⟩
      · simp [List.nodup_append, hnd, htm]
      · simp only [add_token, hl]
        rw [hw, hc, pairsFrom_append t ts 0]
        simp
      · simp only [add_token, hl]
        rw [hi, hc, invFrom_append t ts 0]
        simp
      · simp only [add_token, hl]
        rw [hc]
        simp

theorem vocabWf_add_tokens (ts : List String) :
    ∀ v : Vocab, VocabWf v → VocabWf (add_tokens v ts).1 := by
  induction ts with
  | nil => intro v h; simpa [add_tokens] using h
  | cons t rest ih =>
      intro v h
      simp only [add_tokens]
      exact ih _ (vocabWf_add_token v t h)

theorem vocabReachable_wf (v : Vocab) (h : VocabReachable v) : VocabWf v := by
  induction h with
  | init => exact vocabWf_init
  | add w t hw ih => exact vocabWf_add_token w t ih
  | adds w ts hw ih => exact vocabWf_add_tokens ts w ih

/-- C1: every vocabulary reachable from `initialize_vocabulary` by `add_token`
and `add_tokens` calls keeps `word2idx` and `idx2word` exact inverses, its
assigned indices are exactly the dense range `0 .. count - 1`, and `count`
equals the number of entries of each dict. -/
theorem reachable_vocab_invariants (v : Vocab) (h : VocabReachable v) :
    (∀ (t : String) (i : Int),
      lookupKey t v.word2idx = some i ↔ lookupKey i v.idx2word = some t) ∧
    (∀ i : Int, (∃ t, lookupKey t v.word2idx = some i) ↔ 0 ≤ i ∧ i < v.count) ∧
    v.count = (v.word2idx.length : Int) ∧ v.count = (v.idx2word.length : Int) := by
  obtain ⟨ts, hnd, hw, hi, hc⟩ := vocabReachable_wf v h
  refine ⟨?_, ?_, ?_, ?_⟩
  · intro t i
    rw [hw, hi]
    exact pairsFrom_invFrom_iff ts hnd 0 i t
  · intro i
    rw [hw, hc]
    have hd := pairsFrom_dense ts hnd 0 i
    simpa using hd
  · rw [hc, hw, pairsFrom_length]
  · rw [hc, hi, invFrom_length]

theorem reachable_vocab_invariants_witness :
    lookupKey "<PAD>" initialize_vocabulary.word2idx = some 1 ↔
      lookupKey 1 initialize_vocabulary.idx2word = some "<PAD>" :=
  (reachable_vocab_invariants initialize_vocabulary VocabReachable.init).1 "<PAD>" 1

/-- C5: on any reachable vocabulary, `lookup_token` returns the stored index
of a present token, returns the index stored for `<UNK>` (always 0) on a
missing token, and never fails on any string input. -/
theorem lookup_token_total_on_reachable (v : Vocab) (hv : VocabReachable v) (t : String) :
    lookupKey "<UNK>" v.word2idx = some 0 ∧
    (∀ i : Int, lookupKey t v.word2idx = some i → lookup_token v t = some i) ∧
    (lookupKey t v.word2idx = none → lookup_token v t = some 0) ∧
    (lookup_token v t).isSome := by
  have hunk := reachable_unk v hv
  refine ⟨hunk, ?_, ?_, ?_⟩
  · intro i h
    simp [lookup_token, hunk, h]
  · intro h
    simp [lookup_token, hunk, h]
  · simp [lookup_token, hunk]

theorem lookup_token_total_on_reachable_witness :
    lookup_token initialize_vocabulary "zzz" = some 0 :=
  (lookup_token_total_on_reachable initialize_vocabulary VocabReachable.init "zzz").2.2.1
    (by decide)

/-- C6: `lookup_index` returns the token stored for a present index and the
string literal `<UNK>` (not the token stored at index 0) for any missing
index, on every vocabulary. -/
theorem lookup_index_spec (v : Vocab) (i : Int) :
    (∀ s : String, lookupKey i v.idx2word = some s → lookup_index v i = s) ∧
    (lookupKey i v.idx2word = none → lookup_index v i = "<UNK>") := by
  constructor
  · intro s h
    simp [lookup_index, h]
  · intro h
    simp [lookup_index, h]

theorem lookup_index_spec_witness :
    lookup_index badVocab 5 = "<UNK>" :=
  (lookup_index_spec badVocab 5).2 (by decide)

/-- C8: on a reachable vocabulary, for every token present in `word2idx`,
`lookup_index (lookup_token t)` round-trips back to `t`. -/
theorem lookup_round_trip (v : Vocab) (hv : VocabReachable v) (t : String)
    (h : (lookupKey t v.word2idx).isSome) :
    ∃ i : Int, lookup_token v t = some i ∧ lookup_index v i = t := by
  obtain ⟨ts, hnd, hw, hidx, hc⟩ := vocabReachable_wf v hv
  obtain ⟨i, hi⟩ := Option.isSome_iff_exists.mp h
  have hunk := reachable_unk v hv
  refine ⟨i, ?_, ?_⟩
  · simp [lookup_token, hunk, hi]
  · have hinv : lookupKey i v.idx2word = some t := by
      rw [hidx]
      refine (pairsFrom_invFrom_iff ts hnd 0 i t).mp ?_
      rw [← hw]
      exact hi
    simp [lookup_index, hinv]

theorem lookup_round_trip_witness :
    ∃ i : Int, lookup_token initialize_vocabulary "<EOS>" = some i ∧
      lookup_index initialize_vocabulary i = "<EOS>" :=
  lookup_round_trip initialize_vocabulary VocabReachable.init "<EOS>" (by decide)

/-- C9: `add_tokens` applies `add_token` to each token in input order,
returning one index per input token (same length, i-th output is the index
returned for the i-th input); on a fresh vocabulary,
`["cat", "dog", "cat"]` yields `[3, 4, 3]`. -/
theorem add_tokens_spec (v : Vocab) (tokens : List String) :
    (add_tokens v tokens).2.length = tokens.length ∧
    (∀ (t : String) (rest : List String),
      add_tokens v (t :: rest) =
        ((add_tokens (add_token v t).1 rest).1,
          (add_token v t).2 :: (add_tokens (add_token v t).1 rest).2)) ∧
    (add_tokens initialize_vocabulary ["cat", "dog", "cat"]).2 = [3, 4, 3] := by
  refine ⟨?_, ?_, ?_⟩
  · induction tokens generalizing v with
    | nil => rfl
    | cons t rest ih => simp [add_tokens, ih]
  · intro t rest
    rfl
  · decide

/-- C10: `lookup_token` evaluates `word2idx['<UNK>']` unconditionally, so it
succeeds exactly when `'<UNK>'` is a key of `word2idx` — even on a present
query token — and on every reachable vocabulary that key exists, making the
failure branch unreachable. -/
theorem lookup_token_eager_unk (v : Vocab) (t : String) :
    ((lookup_token v t).isSome ↔ (lookupKey "<UNK>" v.word2idx).isSome) ∧
    (lookupKey "<UNK>" v.word2idx = none → lookup_token v t = none) ∧
    (VocabReachable v →
      (lookupKey "<UNK>" v.word2idx).isSome ∧ (lookup_token v t).isSome) := by
  refine ⟨?_, ?_, ?_⟩
  · cases h : lookupKey "<UNK>" v.word2idx <;> simp [lookup_token, h]
  · intro h
    simp [lookup_token, h]
  · intro hv
    have hunk := reachable_unk v hv
    exact ⟨by simp [hunk], by simp [lookup_token, hunk]⟩

theorem lookup_token_eager_unk_witness :
    (lookupKey "a" badVocab.word2idx).isSome ∧
    lookup_token badVocab "a" = none ∧
    (lookup_token initialize_vocabulary "a").isSome :=
  ⟨by decide, (lookup_token_eager_unk badVocab "a").2.1 (by decide),
    ((lookup_token_eager_unk initialize_vocabulary "a").2.2 VocabReachable.init).2⟩

theorem foldl_add_cond_eq_filter (tokens : List String) (cutoff : Int) (l : List String) :
    ∀ v : Vocab,
      l.foldl (fun w word =>
          if (countOcc word tokens : Int) > cutoff then (add_token w word).1 else w) v =
      (l.filter (fun word => decide ((countOcc word tokens : Int) > cutoff))).foldl
          (fun w s => (add_token w s).1) v := by
  induction l with
  | nil => intro v; rfl
  | cons a rest ih =>
      intro v
      by_cases hc : (countOcc a tokens : Int) > cutoff
      · simp [List.foldl_cons, List.filter_cons, hc, ih]
      · simp [List.foldl_cons, List.filter_cons, hc, ih]

theorem lookup_isSome_add_token (v : Vocab) (s t : String) :
    (lookupKey t (add_token v s).1.word2idx).isSome ↔
      (lookupKey t v.word2idx).isSome ∨ t = s := by
  cases h : lookupKey s v.word2idx with
  | some j =>
      simp only [add_token, h]
      constructor
      · intro hs
        exact Or.inl hs
      · rintro (hs | rfl)
        · exact hs
        · simp [h]
  | none =>
      simp only [add_token, h]
      cases ht : lookupKey t v.word2idx with
      | some j =>
          rw [lookupKey_append_some _ ht]
          simp
      | none =>
          rw [lookupKey_append_none _ ht]
          by_cases hts : t = s
          · subst hts
            simp [lookupKey]
          · simp [lookupKey, hts, ht]

theorem lookup_isSome_foldl_add (l : List String) (t : String) :
    ∀ v : Vocab,
      (lookupKey t (l.foldl (fun w s => (add_token w s).1) v).word2idx).isSome ↔
        (lookupKey t v.word2idx).isSome ∨ t ∈ l := by
  induction l with
  | nil => intro v; simp
  | cons a rest ih =>
      intro v
      simp only [List.foldl_cons]
      rw [ih, lookup_isSome_add_token]
      simp only [List.mem_cons]
      tauto

theorem reachable_foldl_add (l : List String) :
    ∀ v : Vocab, VocabReachable v →
      VocabReachable (l.foldl (fun w s => (add_token w s).1) v) := by
  induction l with
  | nil => intro v hv; simpa using hv
  | cons a rest ih =>
      intro v hv
      simp only [List.foldl_cons]
      exact ih _ (VocabReachable.add v a hv)

theorem mem_counterKeys (tokens : List String) (t : String) :
    t ∈ counterKeys tokens ↔ t ∈ tokens := by
  induction tokens with
  | nil => simp [counterKeys]
  | cons a rest ih =>
      simp only [counterKeys, List.mem_cons, List.mem_filter]
      constructor
      · rintro (rfl | ⟨hm, _⟩)
        · exact Or.inl rfl
        · exact Or.inr (ih.mp hm)
      · rintro (rfl | hm)
        · exact Or.inl rfl
        · by_cases hta : t = a
          · exact Or.inl hta
          · refine Or.inr ⟨ih.mpr hm, ?_⟩
            simp [hta]

theorem lookup_init_isSome_iff (t : String) :
    (lookupKey t initialize_vocabulary.word2idx).isSome ↔ t ∈ special_tokens := by
  have hw : initialize_vocabulary.word2idx = pairsFrom 0 special_tokens := by decide
  rw [hw]
  constructor
  · intro h
    obtain ⟨i, hi⟩ := Option.isSome_iff_exists.mp h
    exact lookup_pairsFrom_mem special_tokens t 0 i hi
  · intro h
    exact mem_lookup_pairsFrom special_tokens t h 0

theorem vocab_from_tokens_key_iff (tokens : List String) (cutoff : Int) (t : String) :
    (lookupKey t (vocabulary_from_tokens tokens cutoff).word2idx).isSome ↔
      t ∈ special_tokens ∨ (t ∈ tokens ∧ (countOcc t tokens : Int) > cutoff) := by
  unfold vocabulary_from_tokens
  rw [foldl_add_cond_eq_filter tokens cutoff (counterKeys tokens) initialize_vocabulary,
    lookup_isSome_foldl_add, lookup_init_isSome_iff]
  have hfil : t ∈ (counterKeys tokens).filter
        (fun word => decide ((countOcc word tokens : Int) > cutoff)) ↔
      (t ∈ tokens ∧ (countOcc t tokens : Int) > cutoff) := by
    rw [List.mem_filter, mem_counterKeys]
    simp
  rw [hfil]

theorem vocab_from_tokens_reachable (tokens : List String) (cutoff : Int) :
    VocabReachable (vocabulary_from_tokens tokens cutoff) := by
  unfold vocabulary_from_tokens
  rw [foldl_add_cond_eq_filter]
  exact reachable_foldl_add _ initialize_vocabulary VocabReachable.init

/-- C7 counterexample to the claim as stated: the reserved token `<PAD>`
occurs once in the corpus (frequency 1, not greater than cutoff 25), yet it is
present in `vocabulary_from_tokens(["<PAD>"], 25)` and `lookup_token` returns
its reserved index 1, not 0. -/
theorem vocabulary_from_tokens_low_freq_counterexample :
    (countOcc "<PAD>" ["<PAD>"] : Int) ≤ 25 ∧
    lookupKey "<PAD>" (vocabulary_from_tokens ["<PAD>"] 25).word2idx = some 1 ∧
    lookup_token (vocabulary_from_tokens ["<PAD>"] 25) "<PAD>" = some 1 := by decide

/-- C7 (amended): `vocabulary_from_tokens` starts from the initialized
vocabulary and its keys are exactly the reserved tokens plus the distinct
input tokens with frequency strictly greater than `cutoff`; every
non-reserved token with frequency at or below `cutoff` is absent and resolves
to index 0; on the empty input with cutoff 25 the result is exactly the fresh
vocabulary with `count = 3`. -/
theorem vocabulary_from_tokens_spec (tokens : List String) (cutoff : Int) :
    (∀ t : String, (lookupKey t (vocabulary_from_tokens tokens cutoff).word2idx).isSome ↔
        (t ∈ special_tokens ∨ (t ∈ tokens ∧ (countOcc t tokens : Int) > cutoff))) ∧
    (∀ t : String, t ∉ special_tokens → (countOcc t tokens : Int) ≤ cutoff →
        lookupKey t (vocabulary_from_tokens tokens cutoff).word2idx = none ∧
        lookup_token (vocabulary_from_tokens tokens cutoff) t = some 0) ∧
    vocabulary_from_tokens [] 25 = initialize_vocabulary ∧
    (vocabulary_from_tokens [] 25).count = 3 := by
  refine ⟨vocab_from_tokens_key_iff tokens cutoff, ?_, rfl, rfl⟩
  intro t hts hcut
  have hnone : lookupKey t (vocabulary_from_tokens tokens cutoff).word2idx = none := by
    cases hcase : lookupKey t (vocabulary_from_tokens tokens cutoff).word2idx with
    | none => rfl
    | some j =>
        have hs : (lookupKey t (vocabulary_from_tokens tokens cutoff).word2idx).isSome := by
          rw [hcase]
          rfl
        rcases (vocab_from_tokens_key_iff tokens cutoff t).mp hs with h1 | ⟨h2, h3⟩
        · exact absurd h1 hts
        · omega
  have hunk := reachable_unk _ (vocab_from_tokens_reachable tokens cutoff)
  refine ⟨hnone, ?_⟩
  simp [lookup_token, hunk, hnone]

theorem vocabulary_from_tokens_spec_witness :
    lookupKey "b" (vocabulary_from_tokens ["a", "a", "a", "b"] 1).word2idx = none ∧
    lookup_token (vocabulary_from_tokens ["a", "a", "a", "b"] 1) "b" = some 0 :=
  (vocabulary_from_tokens_spec ["a", "a", "a", "b"] 1).2.1 "b" (by decide) (by decide)
